import Mathlib

/-!
Verification of the RealSmithAI caption layout engine and scene compositor.

The definitions below are a shallow embedding of `src/utils/layout.ts`
(`calculateTextLayout` and its data types), of the caption-selection logic
shared by `drawCaptions` in `src/utils/videoGenerator.ts` and `Player.draw`,
and of the scene loop and encoding negotiation of the optimized `renderVideo`
in `src/utils/videoGenerator.ts`.  JavaScript numbers are modelled as
rationals (`ℚ`); the integer word weights and the divisions
`cumulativeWeight / totalWeight` are exact in both models.  The
text-measurement capability (`ctx.measureText(·).width`) is modelled as an
arbitrary function `String → ℚ`.
-/

namespace RealSmith

/-- One laid-out word: mirror of the `WordLayout` interface of `layout.ts`
(`text`, `width`, `x`, `startTime`, `endTime`, the last two normalized
to [0,1]). -/
structure WordLayout where
  text : String
  width : ℚ
  x : ℚ
  startTime : ℚ
  endTime : ℚ
deriving DecidableEq, Repr

/-- One laid-out line: mirror of the `LineLayout` interface of `layout.ts`. -/
structure LineLayout where
  words : List WordLayout
  y : ℚ
  width : ℚ
deriving DecidableEq, Repr

/-- Mirror of the `TextLayout` interface of `layout.ts`. -/
structure TextLayout where
  lines : List LineLayout
  flattenedWords : List WordLayout
  totalChars : ℕ
  fontSize : ℚ
deriving DecidableEq, Repr

/-- Auxiliary splitter over the character list: JavaScript
`text.split(' ')` splits at every single space and keeps empty pieces;
the empty string yields `[""]`. -/
def splitAux : List Char → List (List Char)
  | [] => [[]]
  | c :: cs =>
    match splitAux cs with
    | [] => [[c]]
    | w :: ws => if c = ' ' then [] :: w :: ws else (c :: w) :: ws

/-- Model of JavaScript `text.split(' ')` (used as `text.split(' ')` in
`calculateTextLayout`). -/
def jsSplit (s : String) : List String :=
  (splitAux s.data).map String.mk

/-- `endsIn t c` models JavaScript `t.endsWith(c)` for a one-character
suffix `c`: the last character of `t` is `c` (false on the empty string). -/
def endsIn (t : String) (c : Char) : Bool :=
  match t.data.getLast? with
  | some d => d = c
  | none => false

/-- Mirror of `getWeight` in `calculateTextLayout`:
`let w = t.length; if (t.endsWith(',') || t.endsWith(';')) w += 4;
if (t.endsWith('.') || t.endsWith('!') || t.endsWith('?')) w += 8;
return Math.max(1, w);`. -/
def getWeight (t : String) : ℕ :=
  let w1 := t.length + (if endsIn t ',' || endsIn t ';' then 4 else 0)
  let w2 := w1 + (if endsIn t '.' || endsIn t '!' || endsIn t '?' then 8 else 0)
  max 1 w2

/-- Step 1 of `calculateTextLayout` ("Build Lines"): the greedy wrap loop.
The two accumulator arguments mirror the mutable locals `currentLine` and
`currentLineWidth`; the recursion consumes `rawWords`.  The final
`currentLine` is pushed when non-empty
(`if (currentLine.length > 0) lines.push(currentLine)`). -/
def buildLines (measure : String → ℚ) (maxWidth spaceWidth : ℚ) :
    List String → List WordLayout → ℚ → List (List WordLayout)
  | [], currentLine, _ =>
    if currentLine.isEmpty then [] else [currentLine]
  | wordStr :: rest, currentLine, currentLineWidth =>
    let wordWidth := measure wordStr
    if 0 < currentLine.length ∧ maxWidth < currentLineWidth + spaceWidth + wordWidth then
      currentLine ::
        buildLines measure maxWidth spaceWidth rest
          [⟨wordStr, wordWidth, 0, 0, 0⟩] wordWidth
    else
      let newLine := currentLine ++ [⟨wordStr, wordWidth, 0, 0, 0⟩]
      buildLines measure maxWidth spaceWidth rest newLine
        (currentLineWidth + (if 1 < newLine.length then spaceWidth else 0) + wordWidth)

/-- Mirror of
`line.reduce((acc, w, i) => acc + w.width + (i > 0 ? spaceWidth : 0), 0)`. -/
def lineWidthOf (spaceWidth : ℚ) : List WordLayout → ℚ
  | [] => 0
  | w :: ws => w.width + (ws.map (fun v => spaceWidth + v.width)).sum

/-- The inner `line.map` of step 2 of `calculateTextLayout`: positions each
word (`x := currentX; currentX += w.width + spaceWidth`) and assigns
`startTime = cumulativeWeight / totalWeight`,
`endTime = (cumulativeWeight + weight) / totalWeight`.  Returns the
positioned words together with the updated `cumulativeWeight`. -/
def placeWords (spaceWidth T : ℚ) :
    List WordLayout → ℚ → ℚ → List WordLayout × ℚ
  | [], _, cum => ([], cum)
  | w :: rest, curX, cum =>
    let weight : ℚ := (getWeight w.text : ℚ)
    let tail := placeWords spaceWidth T rest (curX + w.width + spaceWidth) (cum + weight)
    ({ w with x := curX, startTime := cum / T, endTime := (cum + weight) / T } :: tail.1,
     tail.2)

/-- The outer `lines.map` of step 2 of `calculateTextLayout`: centers each
line (`currentX = (maxWidth - lineWidth) / 2`), stacks lines vertically
(`y = startY + idx * lineHeight`) and threads `cumulativeWeight` across
lines. -/
def placeLines (spaceWidth maxWidth startY lineHeight T : ℚ) :
    List (List WordLayout) → ℕ → ℚ → List LineLayout × ℚ
  | [], _, cum => ([], cum)
  | line :: rest, idx, cum =>
    let lw := lineWidthOf spaceWidth line
    let placed := placeWords spaceWidth T line ((maxWidth - lw) / 2) cum
    let tail := placeLines spaceWidth maxWidth startY lineHeight T rest (idx + 1) placed.2
    ({ words := placed.1, y := startY + (idx : ℚ) * lineHeight, width := lw } :: tail.1,
     tail.2)

/-- Shallow embedding of `calculateTextLayout(ctx, text, maxWidth, startY,
fontSize, lineHeightScale)` from `layout.ts`.  `measure` stands for
`ctx.measureText(·).width`.  `flattenedWords` collects the positioned words
in exactly the order the source pushes them (line by line, left to right). -/
def calculateTextLayout (measure : String → ℚ) (text : String)
    (maxWidth startY fontSize lineHeightScale : ℚ) : TextLayout :=
  let rawWords := jsSplit text
  let spaceWidth := measure (" ")
  let lines := buildLines measure maxWidth spaceWidth rawWords [] 0
  let lineHeight := fontSize * lineHeightScale
  let weights := (lines.map (fun l => l.map (fun w => getWeight w.text))).flatten
  let totalWeight : ℕ := weights.sum
  let placed := placeLines spaceWidth maxWidth startY lineHeight (totalWeight : ℚ) lines 0 0
  { lines := placed.1
    flattenedWords := (placed.1.map (fun l => l.words)).flatten
    totalChars := text.length
    fontSize := fontSize }

/-- Mirror of the active-word selection shared by `drawCaptions`
(`videoGenerator.ts`) and `Player.draw` (`Player.tsx`):
`layout.flattenedWords.find(w => progress >= w.startTime && progress < w.endTime)`. -/
def activeWord (layout : TextLayout) (progress : ℚ) : Option WordLayout :=
  layout.flattenedWords.find? fun w =>
    decide (w.startTime ≤ progress) && decide (progress < w.endTime)

/-- A concrete measurement capability used for concrete instantiations:
every character one pixel wide. -/
def lenMeasure (s : String) : ℚ := (s.length : ℚ)

/-- The layout the optimized renderer computes for the narration
`"Hello, world!"`: `calculateTextLayout(ctx, text, WIDTH*0.85, HEIGHT*0.75,
Math.floor(HEIGHT*0.035))` with `WIDTH = 720`, `HEIGHT = 1280` and the
default `lineHeightScale = 1.35`, with the one-pixel-per-character
measurement capability. -/
def helloLayout : TextLayout :=
  calculateTextLayout lenMeasure ("Hello, world!") 612 960 44 (27 / 20)

/-- The text projection of a word list. -/
def textsOf (L : List WordLayout) : List String :=
  L.map fun w => w.text

/-- The timing projection of a word list: the `(startFraction, endFraction)`
pairs, in list order. -/
def timesOf (L : List WordLayout) : List (ℚ × ℚ) :=
  L.map fun w => (w.startTime, w.endTime)

/-- The word weights of a narration text, in reading order:
`text.split(' ').map(getWeight)`. -/
def weightsOf (text : String) : List ℕ :=
  (jsSplit text).map getWeight

/-- Cumulative-weight-over-total-weight spans for a weight list, starting
from the cumulative weight `c`: the word of weight `w` at cumulative
weight `c` spans `[c / T, (c + w) / T)`. -/
def spansAux (T : ℚ) : List ℕ → ℚ → List (ℚ × ℚ)
  | [], _ => []
  | w :: ws, c => (c / T, (c + (w : ℚ)) / T) :: spansAux T ws (c + (w : ℚ))

/-- Punctuation bonus exactly as the specification words it: 8 if the word
ends in `.`, `!`, or `?`; 4 if it ends in `,` or `;`; 0 otherwise. -/
def specPunctuationBonus (t : String) : ℕ :=
  if endsIn t '.' || endsIn t '!' || endsIn t '?' then 8
  else if endsIn t ',' || endsIn t ';' then 4
  else 0

/-- The two output container formats of `renderVideo`
(`options.format: 'webm' | 'mp4'`). -/
inductive VideoFormat where
  | mp4
  | webm
deriving DecidableEq, Repr

/-- The candidate media types tried by the optimized `renderVideo`
(`videoGenerator.ts` line 201): `format === 'mp4' ?
['video/mp4;codecs=avc1', 'video/mp4', 'video/webm'] :
['video/webm;codecs=vp9', 'video/webm']`. -/
def mimeCandidates : VideoFormat → List String
  | VideoFormat.mp4 => ["video/mp4;codecs=avc1", "video/mp4", "video/webm"]
  | VideoFormat.webm => ["video/webm;codecs=vp9", "video/webm"]

/-- Mirror of the negotiation
`(...).find(t => MediaRecorder.isTypeSupported(t)) || ''`: the first
supported candidate, or the empty string when none is supported. -/
def negotiateMimeType (fmt : VideoFormat) (isTypeSupported : String → Bool) : String :=
  match (mimeCandidates fmt).find? isTypeSupported with
  | some t => t
  | none => ""

/-- A platform that supports only the mp4 container family. -/
def mp4OnlySupport (t : String) : Bool :=
  t == "video/mp4;codecs=avc1" || t == "video/mp4"

/-- A platform that supports only the generic webm container. -/
def webmOnlySupport (t : String) : Bool :=
  t == "video/webm"

/-- An upstream-loaded image (opaque pixel source); scenes whose image
failed to load carry `none` instead. -/
structure LoadedImage where
  tag : ℕ
deriving DecidableEq, Repr

/-- The per-scene inputs the optimized `renderVideo` consumes: `id`,
`narration`, and the decoded `audioBuffer`, modelled by its duration in
seconds (`none` when the scene's audio is entirely missing). -/
structure GeneratedSegment where
  id : String
  narration : String
  audioBuffer : Option ℚ
deriving DecidableEq, Repr

/-- The frame fractions of one scene's draw loop:
`for (let f = 0; f < totalFrames; f++) progress = f / totalFrames` with
`totalFrames = buffer.duration * 30`; the integer counter `f` takes the
values `0, 1, …, ⌈totalFrames⌉ - 1`. -/
def sceneFrameFractions (duration : ℚ) : List ℚ :=
  (List.range (Nat.ceil (duration * 30))).map fun (f : ℕ) => (f : ℚ) / (duration * 30)

/-- One composited frame, recording what the draw pass put on the canvas:
the scene, the background image (`none` = plain black fill), whether the
caption overlay was drawn, and which word it highlighted. -/
structure Frame where
  sceneId : String
  background : Option LoadedImage
  captionsDrawn : Bool
  highlighted : Option WordLayout
deriving DecidableEq, Repr

/-- One tick of the scene draw loop: fill black, draw the image if present,
then `drawCaptions(seg.id, progress)`, which returns early when captions
are off or the cache has no layout for the scene, and otherwise highlights
`activeWord`. -/
def drawnFrame (showCaptions : Bool) (layouts : String → Option TextLayout)
    (seg : GeneratedSegment) (img : Option LoadedImage) (progress : ℚ) : Frame :=
  { sceneId := seg.id
    background := img
    captionsDrawn := showCaptions && (layouts seg.id).isSome
    highlighted :=
      if showCaptions then (layouts seg.id).bind fun L => activeWord L progress
      else none }

/-- All frames one scene contributes: none at all when its audio buffer is
missing (`if (!buffer) continue`), otherwise one frame per loop tick. -/
def sceneFrames (showCaptions : Bool) (layouts : String → Option TextLayout)
    (seg : GeneratedSegment) (img : Option LoadedImage) : List Frame :=
  match seg.audioBuffer with
  | none => []
  | some dur => (sceneFrameFractions dur).map (drawnFrame showCaptions layouts seg img)

/-- The full frame stream of `renderVideo`: scenes processed strictly in
order, each zipped with its pre-loaded image. -/
def renderFrames (showCaptions : Bool) (layouts : String → Option TextLayout)
    (segs : List GeneratedSegment) (imgs : List (Option LoadedImage)) : List Frame :=
  ((segs.zip imgs).map fun si => sceneFrames showCaptions layouts si.1 si.2).flatten

/-- The audio contributions of `renderVideo`, in scene order: one source of
the buffer's duration per scene that has audio; a scene with no audio
contributes nothing. -/
def renderAudio (segs : List GeneratedSegment) : List ℚ :=
  segs.filterMap fun s => s.audioBuffer

/-- The layout cache of the optimized `renderVideo`:
`segments.forEach(seg => { if (seg.narration) layoutCache.set(seg.id,
calculateTextLayout(...)) })`, queried by scene id (for duplicate ids the
last write wins, as for a JavaScript `Map`). -/
def layoutCacheGet (measure : String → ℚ) (mw sy fs lhs : ℚ)
    (segs : List GeneratedSegment) (sid : String) : Option TextLayout :=
  match (segs.filter fun s => decide (s.narration ≠ "") && (s.id == sid)).getLast? with
  | some s => some (calculateTextLayout measure s.narration mw sy fs lhs)
  | none => none

/-- A concrete scene with narration and a 10-second decoded audio buffer. -/
def segA : GeneratedSegment :=
  ⟨("s1"), ("Hi"), some 10⟩

/-- A concrete scene whose audio is entirely missing. -/
def segB : GeneratedSegment :=
  ⟨("s2"), ("Yo"), none⟩

/-! ### Basic facts about the split and the weights -/

theorem splitAux_ne_nil (cs : List Char) : splitAux cs ≠ [] := by
  induction cs with
  | nil => simp [splitAux]
  | cons c cs ih =>
    simp only [splitAux]
    rcases h : splitAux cs with _ | ⟨w, ws⟩
    · simp
    · by_cases hc : c = ' ' <;> simp [hc]

theorem jsSplit_ne_nil (s : String) : jsSplit s ≠ [] := by
  simp [jsSplit, splitAux_ne_nil]

theorem getWeight_pos (t : String) : 1 ≤ getWeight t := le_max_left 1 _

theorem weightsOf_ne_nil (text : String) : weightsOf text ≠ [] := by
  simp [weightsOf, jsSplit_ne_nil]

theorem weightsOf_pos (text : String) : ∀ u ∈ weightsOf text, 1 ≤ u := by
  intro u hu
  simp only [weightsOf, List.mem_map] at hu
  obtain ⟨w, _, rfl⟩ := hu
  exact getWeight_pos w

theorem weightsSum_pos (text : String) : 0 < (weightsOf text).sum := by
  rcases h : weightsOf text with _ | ⟨u, us⟩
  · exact absurd h (weightsOf_ne_nil text)
  · have h1 : 1 ≤ u := weightsOf_pos text u (by rw [h]; exact List.mem_cons_self u us)
    simp only [List.sum_cons]
    omega

/-! ### The wrap loop never drops, reorders, or fabricates words -/

theorem buildLines_flatten_texts (measure : String → ℚ) (mw sw : ℚ)
    (ws : List String) :
    ∀ (cl : List WordLayout) (cw : ℚ),
      ((buildLines measure mw sw ws cl cw).flatten).map (fun w => w.text)
        = cl.map (fun w => w.text) ++ ws := by
  induction ws with
  | nil =>
    intro cl cw
    by_cases h : cl.isEmpty
    · simp [buildLines, h, List.isEmpty_iff.mp h]
    · simp [buildLines, h]
  | cons w rest ih =>
    intro cl cw
    simp only [buildLines]
    by_cases h : 0 < cl.length ∧ mw < cw + sw + measure w
    · rw [if_pos h]
      simp [ih]
    · rw [if_neg h]
      simp [ih]

theorem buildLines_ne_nil (measure : String → ℚ) (mw sw : ℚ)
    (ws : List String) :
    ∀ (cl : List WordLayout) (cw : ℚ),
      ∀ l ∈ buildLines measure mw sw ws cl cw, l ≠ [] := by
  induction ws with
  | nil =>
    intro cl cw l hl
    by_cases h : cl.isEmpty
    · simp [buildLines, h] at hl
    · simp only [buildLines, h, Bool.false_eq_true, if_false, List.mem_singleton] at hl
      subst hl
      simpa [List.isEmpty_iff] using h
  | cons w rest ih =>
    intro cl cw l hl
    simp only [buildLines] at hl
    by_cases h : 0 < cl.length ∧ mw < cw + sw + measure w
    · rw [if_pos h] at hl
      rcases List.mem_cons.mp hl with rfl | hl'
      · exact List.ne_nil_of_length_pos h.1
      · exact ih _ _ l hl'
    · rw [if_neg h] at hl
      exact ih _ _ l hl

/-! ### The positioning pass leaves texts in place and assigns
cumulative-weight spans -/

theorem placeWords_snd (sw T : ℚ) (l : List WordLayout) :
    ∀ (x c : ℚ), (placeWords sw T l x c).2
      = c + (((l.map fun w => getWeight w.text).sum : ℕ) : ℚ) := by
  induction l with
  | nil => intro x c; simp [placeWords]
  | cons w rest ih =>
    intro x c
    simp only [placeWords, ih, List.map_cons, List.sum_cons]
    push_cast
    ring

theorem placeWords_fst_texts (sw T : ℚ) (l : List WordLayout) :
    ∀ (x c : ℚ),
      (placeWords sw T l x c).1.map (fun w => w.text) = l.map (fun w => w.text) := by
  induction l with
  | nil => intro x c; simp [placeWords]
  | cons w rest ih => intro x c; simp [placeWords, ih]

theorem placeWords_fst_length (sw T : ℚ) (l : List WordLayout) (x c : ℚ) :
    (placeWords sw T l x c).1.length = l.length := by
  have h := congrArg List.length (placeWords_fst_texts sw T l x c)
  simpa using h

theorem placeWords_fst_times (sw T : ℚ) (l : List WordLayout) :
    ∀ (x c : ℚ), timesOf (placeWords sw T l x c).1
      = spansAux T (l.map fun w => getWeight w.text) c := by
  induction l with
  | nil => intro x c; simp [placeWords, timesOf, spansAux]
  | cons w rest ih =>
    intro x c
    simp only [placeWords, timesOf, List.map_cons, spansAux] at ih ⊢
    simp [ih]

theorem spansAux_append (T : ℚ) (xs ys : List ℕ) :
    ∀ c : ℚ, spansAux T (xs ++ ys) c
      = spansAux T xs c ++ spansAux T ys (c + ((xs.sum : ℕ) : ℚ)) := by
  induction xs with
  | nil => intro c; simp [spansAux]
  | cons u us ih =>
    intro c
    have h : c + ((((u :: us).sum : ℕ)) : ℚ) = (c + (u : ℚ)) + ((us.sum : ℕ) : ℚ) := by
      push_cast [List.sum_cons]
      ring
    simp only [List.cons_append, spansAux, List.append_eq, ih, h]

theorem placeLines_flat_texts (sw mw sy lh T : ℚ) (ls : List (List WordLayout)) :
    ∀ (idx : ℕ) (c : ℚ),
      (((placeLines sw mw sy lh T ls idx c).1.map (fun l => l.words)).flatten).map
          (fun w => w.text)
        = (ls.flatten).map (fun w => w.text) := by
  induction ls with
  | nil => intro idx c; simp [placeLines]
  | cons line rest ih =>
    intro idx c
    simp only [placeLines, List.map_cons, List.flatten_cons, List.map_append,
      placeWords_fst_texts, ih]

theorem placeLines_flat_times (sw mw sy lh T : ℚ) (ls : List (List WordLayout)) :
    ∀ (idx : ℕ) (c : ℚ),
      timesOf (((placeLines sw mw sy lh T ls idx c).1.map (fun l => l.words)).flatten)
        = spansAux T ((ls.map fun l => l.map fun w => getWeight w.text).flatten) c := by
  induction ls with
  | nil => intro idx c; simp [placeLines, timesOf, spansAux]
  | cons line rest ih =>
    intro idx c
    simp only [placeLines, List.map_cons, List.flatten_cons, timesOf, List.map_append]
    rw [spansAux_append]
    have h1 := placeWords_fst_times sw T line ((mw - lineWidthOf sw line) / 2) c
    simp only [timesOf] at h1
    rw [h1]
    have h2 := ih (idx + 1) (placeWords sw T line ((mw - lineWidthOf sw line) / 2) c).2
    simp only [timesOf] at h2
    rw [h2, placeWords_snd]

theorem placeLines_words_lengths (sw mw sy lh T : ℚ) (ls : List (List WordLayout)) :
    ∀ (idx : ℕ) (c : ℚ),
      (placeLines sw mw sy lh T ls idx c).1.map (fun l => l.words.length)
        = ls.map List.length := by
  induction ls with
  | nil => intro idx c; simp [placeLines]
  | cons line rest ih =>
    intro idx c
    simp only [placeLines, List.map_cons, placeWords_fst_length, ih]

/-! ### The flattened words of a layout: texts and timing spans -/

theorem layout_flattened_texts (measure : String → ℚ) (text : String)
    (mw sy fs lhs : ℚ) :
    textsOf (calculateTextLayout measure text mw sy fs lhs).flattenedWords
      = jsSplit text := by
  simp only [calculateTextLayout, textsOf]
  rw [placeLines_flat_texts]
  simpa using buildLines_flatten_texts measure mw (measure (" ")) (jsSplit text) [] 0

theorem buildLines_weights (measure : String → ℚ) (mw sw : ℚ) (text : String) :
    ((buildLines measure mw sw (jsSplit text) [] 0).map
        (fun l => l.map (fun w => getWeight w.text))).flatten = weightsOf text := by
  rw [← List.map_flatten]
  have h2 : (buildLines measure mw sw (jsSplit text) [] 0).flatten.map
        (fun w => getWeight w.text)
      = ((buildLines measure mw sw (jsSplit text) [] 0).flatten.map
          (fun w => w.text)).map getWeight := by
    simp [List.map_map, Function.comp_def]
  rw [h2]
  have h3 := buildLines_flatten_texts measure mw sw (jsSplit text) [] 0
  rw [h3]
  simp [weightsOf]

theorem layout_flattened_times (measure : String → ℚ) (text : String)
    (mw sy fs lhs : ℚ) :
    timesOf (calculateTextLayout measure text mw sy fs lhs).flattenedWords
      = spansAux (((weightsOf text).sum : ℕ) : ℚ) (weightsOf text) 0 := by
  simp only [calculateTextLayout]
  rw [placeLines_flat_times, buildLines_weights]

/-! ### Interval structure of cumulative-weight spans -/

theorem spansAux_chain (T : ℚ) (hT : 0 < T) (ws : List ℕ) :
    ∀ c : ℚ, List.Chain' (fun a b => a.2 = b.1 ∧ a.1 ≤ b.1) (spansAux T ws c) := by
  induction ws with
  | nil => intro c; simp [spansAux]
  | cons u us ih =>
    intro c
    rcases us with _ | ⟨v, vs⟩
    · simp [spansAux]
    · simp only [spansAux] at ih ⊢
      refine List.chain'_cons.mpr ⟨⟨rfl, ?_⟩, ih (c + (u : ℚ))⟩
      exact (div_le_div_iff_of_pos_right hT).mpr (le_add_of_nonneg_right (Nat.cast_nonneg u))

theorem spansAux_start_ge (T : ℚ) (hT : 0 < T) (ws : List ℕ) :
    ∀ (c : ℚ) (s : ℚ × ℚ), s ∈ spansAux T ws c → c / T ≤ s.1 := by
  induction ws with
  | nil => intro c s hs; simp [spansAux] at hs
  | cons u us ih =>
    intro c s hs
    rcases List.mem_cons.mp hs with rfl | hs'
    · exact le_refl _
    · refine le_trans ?_ (ih (c + (u : ℚ)) s hs')
      exact (div_le_div_iff_of_pos_right hT).mpr (le_add_of_nonneg_right (Nat.cast_nonneg u))

theorem spansAux_end_le (T : ℚ) (hT : 0 < T) (ws : List ℕ) :
    ∀ (c : ℚ) (s : ℚ × ℚ), s ∈ spansAux T ws c
      → s.2 ≤ (c + ((ws.sum : ℕ) : ℚ)) / T := by
  induction ws with
  | nil => intro c s hs; simp [spansAux] at hs
  | cons u us ih =>
    intro c s hs
    have hsum : c + (((u :: us).sum : ℕ) : ℚ) = (c + (u : ℚ)) + ((us.sum : ℕ) : ℚ) := by
      push_cast [List.sum_cons]
      ring
    rcases List.mem_cons.mp hs with rfl | hs'
    · rw [hsum]
      exact (div_le_div_iff_of_pos_right hT).mpr (le_add_of_nonneg_right (Nat.cast_nonneg _))
    · rw [hsum]
      exact ih (c + (u : ℚ)) s hs'

theorem spansAux_fst_lt_snd (T : ℚ) (hT : 0 < T) (ws : List ℕ)
    (hws : ∀ u ∈ ws, 1 ≤ u) :
    ∀ (c : ℚ) (s : ℚ × ℚ), s ∈ spansAux T ws c → s.1 < s.2 := by
  induction ws with
  | nil => intro c s hs; simp [spansAux] at hs
  | cons u us ih =>
    intro c s hs
    rcases List.mem_cons.mp hs with rfl | hs'
    · refine (div_lt_div_iff_of_pos_right hT).mpr ?_
      have h1 : 1 ≤ u := hws u (List.mem_cons_self u us)
      have h2 : (1 : ℚ) ≤ (u : ℚ) := by exact_mod_cast h1
      linarith
    · exact ih (fun v hv => hws v (List.mem_cons_of_mem u hv)) (c + (u : ℚ)) s hs'

theorem spansAux_getLast (T : ℚ) (ws : List ℕ) :
    ∀ c : ℚ, ws ≠ [] →
      (spansAux T ws c).getLast?.map (fun s => s.2)
        = some ((c + ((ws.sum : ℕ) : ℚ)) / T) := by
  induction ws with
  | nil => intro c h; exact absurd rfl h
  | cons u us ih =>
    intro c _
    rcases us with _ | ⟨v, vs⟩
    · simp [spansAux]
    · have hsum : c + (((u :: v :: vs).sum : ℕ) : ℚ)
          = (c + (u : ℚ)) + (((v :: vs).sum : ℕ) : ℚ) := by
        push_cast [List.sum_cons]
        ring
      have htail := ih (c + (u : ℚ)) (by simp)
      have hne : spansAux T (v :: vs) (c + (u : ℚ)) ≠ [] := by simp [spansAux]
      simp only [spansAux] at htail ⊢
      rw [List.getLast?_cons_cons, htail, hsum]

/-! ### The first-match selection over contiguous spans -/

theorem find_none_of_ge (p T : ℚ) (hT : 0 < T) (ws : List ℕ) :
    ∀ (c : ℚ) (L : List WordLayout), timesOf L = spansAux T ws c →
      (c + ((ws.sum : ℕ) : ℚ)) / T ≤ p →
      L.find? (fun w => decide (w.startTime ≤ p) && decide (p < w.endTime)) = none := by
  induction ws with
  | nil =>
    intro c L hL _
    have : L = [] := by simpa [timesOf, spansAux] using hL
    simp [this]
  | cons u us ih =>
    intro c L hL hp
    rcases L with _ | ⟨w0, L'⟩
    · rfl
    · simp only [timesOf, List.map_cons, spansAux, List.cons.injEq, Prod.mk.injEq] at hL
      obtain ⟨⟨h1, h2⟩, h3⟩ := hL
      have hsum : c + (((u :: us).sum : ℕ) : ℚ) = (c + (u : ℚ)) + ((us.sum : ℕ) : ℚ) := by
        push_cast [List.sum_cons]
        ring
      have hend : w0.endTime ≤ p := by
        rw [h2]
        refine le_trans ?_ hp
        rw [hsum]
        exact (div_le_div_iff_of_pos_right hT).mpr (le_add_of_nonneg_right (Nat.cast_nonneg _))
      rw [List.find?_cons_of_neg _ (by simp [hend, not_lt.mpr hend])]
      refine ih (c + (u : ℚ)) L' h3 ?_
      rw [← hsum]
      exact hp

theorem find_isSome_of_window (p T : ℚ) (hT : 0 < T) (ws : List ℕ) :
    ∀ (c : ℚ) (L : List WordLayout), timesOf L = spansAux T ws c → ws ≠ [] →
      c / T ≤ p → p < (c + ((ws.sum : ℕ) : ℚ)) / T →
      (L.find? (fun w => decide (w.startTime ≤ p) && decide (p < w.endTime))).isSome
        = true := by
  induction ws with
  | nil => intro c L _ h; exact absurd rfl h
  | cons u us ih =>
    intro c L hL _ hlow hhigh
    rcases L with _ | ⟨w0, L'⟩
    · simp [timesOf, spansAux] at hL
    · simp only [timesOf, List.map_cons, spansAux, List.cons.injEq, Prod.mk.injEq] at hL
      obtain ⟨⟨h1, h2⟩, h3⟩ := hL
      have hsum : c + (((u :: us).sum : ℕ) : ℚ) = (c + (u : ℚ)) + ((us.sum : ℕ) : ℚ) := by
        push_cast [List.sum_cons]
        ring
      by_cases hp : p < (c + (u : ℚ)) / T
      · rw [List.find?_cons_of_pos _ (by simp [h1, h2, hlow, hp])]
        rfl
      · rcases us with _ | ⟨v, vs⟩
        · exfalso
          apply hp
          have : (((([u] : List ℕ).sum : ℕ)) : ℚ) = (u : ℚ) := by simp
          rw [← this]
          exact hhigh
        · rw [List.find?_cons_of_neg _ (by simp [h2, hp])]
          refine ih (c + (u : ℚ)) L' h3 (by simp) (not_lt.mp hp) ?_
          rw [← hsum]
          exact hhigh

theorem find_eq_of_mem (p T : ℚ) (hT : 0 < T) (ws : List ℕ) :
    ∀ (c : ℚ) (L : List WordLayout) (w : WordLayout), timesOf L = spansAux T ws c →
      w ∈ L → w.startTime ≤ p → p < w.endTime →
      L.find? (fun v => decide (v.startTime ≤ p) && decide (p < v.endTime)) = some w := by
  induction ws with
  | nil =>
    intro c L w hL hw _ _
    have : L = [] := by simpa [timesOf, spansAux] using hL
    subst this
    simp at hw
  | cons u us ih =>
    intro c L w hL hw hws hwe
    rcases L with _ | ⟨w0, L'⟩
    · simp at hw
    · simp only [timesOf, List.map_cons, spansAux, List.cons.injEq, Prod.mk.injEq] at hL
      obtain ⟨⟨h1, h2⟩, h3⟩ := hL
      rcases List.mem_cons.mp hw with rfl | hw'
      · exact List.find?_cons_of_pos _ (by simp [hws, hwe])
      · have hstart : (c + (u : ℚ)) / T ≤ w.startTime := by
          have hmem : (w.startTime, w.endTime) ∈ spansAux T us (c + (u : ℚ)) := by
            rw [← h3]
            exact List.mem_map_of_mem _ hw'
          exact spansAux_start_ge T hT us (c + (u : ℚ)) (w.startTime, w.endTime) hmem
        have hend : w0.endTime ≤ p := by
          rw [h2]
          exact le_trans hstart hws
        rw [List.find?_cons_of_neg _ (by simp [not_lt.mpr hend])]
        exact ih (c + (u : ℚ)) L' w h3 hw' hws hwe

/-! ### The weight heuristic agrees with the specification's formula -/

theorem getWeight_eq_spec (t : String) :
    getWeight t = max 1 (t.length + specPunctuationBonus t) := by
  unfold getWeight specPunctuationBonus endsIn
  rcases h : t.data.getLast? with _ | d
  · simp
  · by_cases hc : d = ',' <;> by_cases hs : d = ';' <;> by_cases hd : d = '.' <;>
      by_cases hb : d = '!' <;> by_cases hq : d = '?' <;> simp_all

/-! ### Concrete evaluation of the "Hello, world!" layout -/

theorem jsSplit_hello : jsSplit ("Hello, world!") = [("Hello,"), ("world!")] := by
  decide

theorem weightsOf_hello : weightsOf ("Hello, world!") = [10, 14] := by decide

theorem helloLayout_flattened :
    helloLayout.flattenedWords
      = [⟨("Hello,"), 6, 599 / 2, 0, 5 / 12⟩, ⟨("world!"), 6, 613 / 2, 5 / 12, 1⟩] := by
  have hw1 : getWeight ("Hello,") = 10 := by decide
  have hw2 : getWeight ("world!") = 14 := by decide
  have hl0 : (" ").length = 1 := rfl
  have hl1 : ("Hello,").length = 6 := rfl
  have hl2 : ("world!").length = 6 := rfl
  simp only [helloLayout, calculateTextLayout, jsSplit_hello]
  norm_num [buildLines, placeLines, placeWords, lineWidthOf, lenMeasure,
    Function.comp_def, hl0, hl1, hl2, hw1, hw2]

/-! ### Compositor-side facts -/

theorem sceneFrameFractions_mem (d : ℚ) :
    ∀ q ∈ sceneFrameFractions d, 0 ≤ q ∧ q < 1 := by
  intro q hq
  simp only [sceneFrameFractions] at hq
  rw [List.mem_map] at hq
  obtain ⟨f, hf, rfl⟩ := hq
  rw [List.mem_range] at hf
  have hlt : (f : ℚ) < d * 30 := Nat.lt_ceil.mp hf
  have hpos : (0 : ℚ) < d * 30 := lt_of_le_of_lt (Nat.cast_nonneg f) hlt
  refine ⟨div_nonneg (Nat.cast_nonneg f) (le_of_lt hpos), ?_⟩
  rw [div_lt_one hpos]
  exact hlt

theorem sceneFrameFractions_ne_nil (d : ℚ) (hd : 0 < d) :
    sceneFrameFractions d ≠ [] := by
  have hpos : 0 < Nat.ceil (d * 30) := Nat.ceil_pos.mpr (by positivity)
  simp only [sceneFrameFractions, ne_eq, List.map_eq_nil_iff, List.range_eq_nil]
  exact Nat.pos_iff_ne_zero.mp hpos

theorem renderFrames_append (showC : Bool) (layouts : String → Option TextLayout)
    (pre post : List GeneratedSegment) (seg : GeneratedSegment)
    (ipre ipost : List (Option LoadedImage)) (img : Option LoadedImage)
    (hlen : ipre.length = pre.length) :
    renderFrames showC layouts (pre ++ seg :: post) (ipre ++ img :: ipost)
      = renderFrames showC layouts pre ipre
        ++ sceneFrames showC layouts seg img
        ++ renderFrames showC layouts post ipost := by
  simp only [renderFrames]
  rw [List.zip_append hlen.symm]
  simp [List.zip_cons_cons]

theorem layoutCacheGet_isSome (measure : String → ℚ) (mw sy fs lhs : ℚ)
    (segs : List GeneratedSegment) (seg : GeneratedSegment)
    (hmem : seg ∈ segs) (hn : seg.narration ≠ "") :
    (layoutCacheGet measure mw sy fs lhs segs seg.id).isSome = true := by
  simp only [layoutCacheGet]
  have hfil : seg ∈ segs.filter fun s => decide (s.narration ≠ "") && (s.id == seg.id) := by
    rw [List.mem_filter]
    exact ⟨hmem, by simp [hn]⟩
  obtain ⟨s, hs⟩ :=
    Option.isSome_iff_exists.mp (List.getLast?_isSome.mpr (List.ne_nil_of_mem hfil))
  rw [hs]
  rfl

theorem find?_first {α : Type} (p : α → Bool) (l1 l2 : List α) (t : α)
    (h1 : ∀ u ∈ l1, p u = false) (ht : p t = true) :
    ((l1 ++ t :: l2).find? p) = some t := by
  induction l1 with
  | nil => simpa using List.find?_cons_of_pos l2 ht
  | cons a as ih =>
    rw [List.cons_append,
      List.find?_cons_of_neg _ (by simp [h1 a (List.mem_cons_self a as)])]
    exact ih fun u hu => h1 u (List.mem_cons_of_mem a hu)

/-! ### Claim theorems -/

/-- C1: for every measurement function and every non-empty narration text,
the flattened words of `calculateTextLayout` tile `[0, 1]`: the list is
non-empty, the first word's `startTime` is exactly 0, the last word's
`endTime` is exactly 1 (so in particular within `1e-9`), each word's
`endTime` equals the next word's `startTime`, the start fractions are
non-decreasing in flattened (global reading) order, and every word's span
is non-degenerate. -/
theorem C1_fraction_coverage (measure : String → ℚ) (text : String)
    (mw sy fs lhs : ℚ) (h : text ≠ "") :
    (calculateTextLayout measure text mw sy fs lhs).flattenedWords ≠ [] ∧
    Option.map (fun w => w.startTime)
        (calculateTextLayout measure text mw sy fs lhs).flattenedWords.head?
      = some 0 ∧
    Option.map (fun w => w.endTime)
        (calculateTextLayout measure text mw sy fs lhs).flattenedWords.getLast?
      = some 1 ∧
    List.Chain' (fun a b => a.endTime = b.startTime ∧ a.startTime ≤ b.startTime)
      (calculateTextLayout measure text mw sy fs lhs).flattenedWords ∧
    ∀ w ∈ (calculateTextLayout measure text mw sy fs lhs).flattenedWords,
      w.startTime < w.endTime := by
  have htex := layout_flattened_texts measure text mw sy fs lhs
  have htim := layout_flattened_times measure text mw sy fs lhs
  simp only [timesOf] at htim
  have hT : (0 : ℚ) < (((weightsOf text).sum : ℕ) : ℚ) := by
    exact_mod_cast weightsSum_pos text
  have hLne : (calculateTextLayout measure text mw sy fs lhs).flattenedWords ≠ [] := by
    intro hnil
    apply jsSplit_ne_nil text
    rw [← htex, hnil]
    rfl
  refine ⟨hLne, ?_, ?_, ?_, ?_⟩
  · rcases hws : weightsOf text with _ | ⟨u, us⟩
    · exact absurd hws (weightsOf_ne_nil text)
    · have h1 : (List.map (fun w => (w.startTime, w.endTime))
            (calculateTextLayout measure text mw sy fs lhs).flattenedWords).head?
          = some (0 / (((weightsOf text).sum : ℕ) : ℚ),
              (0 + (u : ℚ)) / (((weightsOf text).sum : ℕ) : ℚ)) := by
        rw [htim, hws]
        rfl
      rw [List.head?_map] at h1
      rcases hL : (calculateTextLayout measure text mw sy fs lhs).flattenedWords.head?
        with _ | w0
      · rw [hL] at h1
        simp at h1
      · rw [hL] at h1
        simp only [Option.map_some', Option.some.injEq, Prod.mk.injEq] at h1
        simp [h1.1, zero_div]
  · have h2 := spansAux_getLast (((weightsOf text).sum : ℕ) : ℚ) (weightsOf text) 0
      (weightsOf_ne_nil text)
    rw [← htim, List.getLast?_map, Option.map_map] at h2
    have h3 : (0 + (((weightsOf text).sum : ℕ) : ℚ)) / (((weightsOf text).sum : ℕ) : ℚ)
        = 1 := by
      rw [zero_add, div_self (ne_of_gt hT)]
    rw [h3] at h2
    simpa using h2
  · have hc := spansAux_chain (((weightsOf text).sum : ℕ) : ℚ) hT (weightsOf text) 0
    rw [← htim] at hc
    exact (List.chain'_map _).mp hc
  · intro w hw
    have hmem : (w.startTime, w.endTime) ∈ List.map (fun w => (w.startTime, w.endTime))
        (calculateTextLayout measure text mw sy fs lhs).flattenedWords :=
      List.mem_map_of_mem _ hw
    rw [htim] at hmem
    exact spansAux_fst_lt_snd (((weightsOf text).sum : ℕ) : ℚ) hT (weightsOf text)
      (weightsOf_pos text) 0 _ hmem

/-- Witness for C1 at the narration `"Hi"` with the one-pixel-per-character
measurement function and the renderer's layout parameters. -/
theorem C1_fraction_coverage_witness :
    (("Hi" : String) ≠ "") ∧
    ((calculateTextLayout lenMeasure ("Hi") 612 960 44 (27 / 20)).flattenedWords ≠ [] ∧
    Option.map (fun w => w.startTime)
        (calculateTextLayout lenMeasure ("Hi") 612 960 44 (27 / 20)).flattenedWords.head?
      = some 0 ∧
    Option.map (fun w => w.endTime)
        (calculateTextLayout lenMeasure ("Hi") 612 960 44 (27 / 20)).flattenedWords.getLast?
      = some 1 ∧
    List.Chain' (fun a b => a.endTime = b.startTime ∧ a.startTime ≤ b.startTime)
      (calculateTextLayout lenMeasure ("Hi") 612 960 44 (27 / 20)).flattenedWords ∧
    ∀ w ∈ (calculateTextLayout lenMeasure ("Hi") 612 960 44 (27 / 20)).flattenedWords,
      w.startTime < w.endTime) :=
  ⟨by decide, C1_fraction_coverage lenMeasure ("Hi") 612 960 44 (27 / 20) (by decide)⟩

/-- C2: every word's timing weight is `max(1, characterCount +
punctuationBonus)` with bonus 8 for `.`, `!`, `?`, bonus 4 for `,`, `;`,
and 0 otherwise; the start/end fractions of the flattened words are
cumulative-weight-over-total-weight in global reading order; and for
`"Hello, world!"` the weights are 10 and 14 (total 24), so `"Hello,"`
spans `[0, 10/24)` and `"world!"` spans `[10/24, 1]`. -/
theorem C2_timing_weights :
    (∀ t : String, getWeight t = max 1 (t.length + specPunctuationBonus t)) ∧
    (∀ (measure : String → ℚ) (text : String) (mw sy fs lhs : ℚ),
      timesOf (calculateTextLayout measure text mw sy fs lhs).flattenedWords
        = spansAux (((weightsOf text).sum : ℕ) : ℚ) (weightsOf text) 0) ∧
    weightsOf ("Hello, world!") = [10, 14] ∧
    timesOf helloLayout.flattenedWords = [(0, 10 / 24), (10 / 24, 1)] ∧
    textsOf helloLayout.flattenedWords = [("Hello,"), ("world!")] := by
  refine ⟨getWeight_eq_spec, layout_flattened_times, weightsOf_hello, ?_, ?_⟩
  · rw [helloLayout_flattened]
    norm_num [timesOf]
  · rw [helloLayout_flattened]
    norm_num [textsOf]

/-- C3: the caption-drawing routine highlights exactly the first (and, the
spans being disjoint, the only) flattened word whose half-open span
`[startTime, endTime)` contains the playback fraction; in the
`"Hello, world!"` layout the active word at fraction 0.3 is `"Hello,"`
and at fraction 0.6 is `"world!"`. -/
theorem C3_active_word_selection :
    (∀ (measure : String → ℚ) (text : String) (mw sy fs lhs : ℚ) (p : ℚ)
        (w : WordLayout),
      w ∈ (calculateTextLayout measure text mw sy fs lhs).flattenedWords →
      w.startTime ≤ p → p < w.endTime →
      activeWord (calculateTextLayout measure text mw sy fs lhs) p = some w) ∧
    Option.map (fun w => w.text) (activeWord helloLayout (3 / 10)) = some ("Hello,") ∧
    Option.map (fun w => w.text) (activeWord helloLayout (6 / 10)) = some ("world!") := by
  refine ⟨?_, ?_, ?_⟩
  · intro measure text mw sy fs lhs p w hw hws hwe
    have htim := layout_flattened_times measure text mw sy fs lhs
    simp only [timesOf] at htim
    have hT : (0 : ℚ) < (((weightsOf text).sum : ℕ) : ℚ) := by
      exact_mod_cast weightsSum_pos text
    exact find_eq_of_mem p (((weightsOf text).sum : ℕ) : ℚ) hT (weightsOf text) 0
      (calculateTextLayout measure text mw sy fs lhs).flattenedWords w htim hw hws hwe
  · rw [activeWord, helloLayout_flattened]
    norm_num [List.find?]
  · rw [activeWord, helloLayout_flattened]
    norm_num [List.find?]

/-- Witness for C3: in the `"Hello, world!"` layout, the word `"Hello,"`
(with its concrete position and span) contains fraction 0.3 and is the
word the selection returns there. -/
theorem C3_active_word_selection_witness :
    ((⟨("Hello,"), 6, 599 / 2, 0, 5 / 12⟩ : WordLayout)
        ∈ (calculateTextLayout lenMeasure ("Hello, world!") 612 960 44
            (27 / 20)).flattenedWords) ∧
    ((⟨("Hello,"), 6, 599 / 2, 0, 5 / 12⟩ : WordLayout).startTime ≤ 3 / 10) ∧
    ((3 : ℚ) / 10 < (⟨("Hello,"), 6, 599 / 2, 0, 5 / 12⟩ : WordLayout).endTime) ∧
    activeWord (calculateTextLayout lenMeasure ("Hello, world!") 612 960 44 (27 / 20))
        (3 / 10)
      = some ⟨("Hello,"), 6, 599 / 2, 0, 5 / 12⟩ := by
  have hmem : (⟨("Hello,"), 6, 599 / 2, 0, 5 / 12⟩ : WordLayout)
      ∈ (calculateTextLayout lenMeasure ("Hello, world!") 612 960 44
          (27 / 20)).flattenedWords := by
    have hh : (calculateTextLayout lenMeasure ("Hello, world!") 612 960 44
        (27 / 20)).flattenedWords = helloLayout.flattenedWords := rfl
    rw [hh, helloLayout_flattened]
    simp
  have h1 : (⟨("Hello,"), 6, 599 / 2, 0, 5 / 12⟩ : WordLayout).startTime ≤ 3 / 10 := by
    norm_num
  have h2 : (3 : ℚ) / 10 < (⟨("Hello,"), 6, 599 / 2, 0, 5 / 12⟩ : WordLayout).endTime := by
    norm_num
  exact ⟨hmem, h1, h2,
    C3_active_word_selection.1 lenMeasure ("Hello, world!") 612 960 44 (27 / 20)
      (3 / 10) _ hmem h1 h2⟩

/-- C4 counterexample: for the empty input text the layout has ONE line and
ONE flattened word (JavaScript `"".split(' ')` yields `[""]`), not zero of
each as the claim states. -/
theorem C4_counterexample :
    (calculateTextLayout lenMeasure ("") 612 960 44 (27 / 20)).lines.length = 1 ∧
    (calculateTextLayout lenMeasure ("") 612 960 44 (27 / 20)).flattenedWords.length
      = 1 := by
  have hsplit : jsSplit ("") = [("")] := by decide
  have hw : getWeight ("") = 1 := by decide
  have hl : ("").length = 0 := rfl
  have hsp : (" ").length = 1 := rfl
  simp only [calculateTextLayout, hsplit]
  norm_num [buildLines, placeLines, placeWords, lineWidthOf, lenMeasure, hl, hsp, hw]

/-- C4 as amended: for the empty input text (and any measurement function),
`calculateTextLayout` returns one line holding one word whose text is the
empty string and whose span is the whole interval `[0, 1]`. -/
theorem C4_empty_text_layout (measure : String → ℚ) (mw sy fs lhs : ℚ) :
    (calculateTextLayout measure ("") mw sy fs lhs).lines.length = 1 ∧
    textsOf (calculateTextLayout measure ("") mw sy fs lhs).flattenedWords = [("")] ∧
    timesOf (calculateTextLayout measure ("") mw sy fs lhs).flattenedWords
      = [(0, 1)] := by
  refine ⟨?_, ?_, ?_⟩
  · have hsplit : jsSplit ("") = [("")] := by decide
    simp only [calculateTextLayout, hsplit]
    simp [buildLines, placeLines]
  · rw [layout_flattened_texts]
    decide
  · rw [layout_flattened_times]
    have hws : weightsOf ("") = [1] := by decide
    rw [hws]
    norm_num [spansAux]

/-- C5 counterexample: with webm preferred and a platform supporting only
the mp4 family, negotiation returns the empty string instead of falling
back to mp4 (the webm preference list contains no mp4 entry); moreover the
mp4 preference list does not contain the other container's codec entry
`video/webm;codecs=vp9`.  No error value exists: the recorder is simply
constructed with the resulting (possibly empty) type string. -/
theorem C5_counterexample :
    negotiateMimeType VideoFormat.webm mp4OnlySupport = "" ∧
    mp4OnlySupport ("video/mp4") = true ∧
    (("video/mp4" : String) ≠ "") ∧
    ¬ (("video/webm;codecs=vp9") ∈ mimeCandidates VideoFormat.mp4) ∧
    ¬ (("video/mp4") ∈ mimeCandidates VideoFormat.webm) := by
  refine ⟨?_, by decide, by decide, by decide, by decide⟩
  decide

/-- C5 as amended: negotiation tries, for mp4 preference,
`[video/mp4;codecs=avc1, video/mp4, video/webm]` and, for webm preference,
`[video/webm;codecs=vp9, video/webm]` (no mp4 fallback); the first
supported identifier wins, and when no identifier is supported the
negotiated type is the empty string (rendering proceeds with it; no
`RenderError` is raised). -/
theorem C5_negotiation (fmt : VideoFormat) (supp : String → Bool) :
    (∀ (l1 l2 : List String) (t : String),
      mimeCandidates fmt = l1 ++ t :: l2 → (∀ u ∈ l1, supp u = false) →
      supp t = true → negotiateMimeType fmt supp = t) ∧
    ((∀ u ∈ mimeCandidates fmt, supp u = false) → negotiateMimeType fmt supp = "") := by
  constructor
  · intro l1 l2 t hlist hl1 ht
    simp only [negotiateMimeType, hlist]
    rw [find?_first supp l1 l2 t hl1 ht]
  · intro hnone
    simp only [negotiateMimeType]
    rw [List.find?_eq_none.mpr fun x hx => by simp [hnone x hx]]

/-- Witness for C5 as amended: with mp4 preferred and a platform that
supports only the generic webm container, the first two candidates are
unsupported and negotiation returns `video/webm`. -/
theorem C5_negotiation_witness :
    (mimeCandidates VideoFormat.mp4
      = ["video/mp4;codecs=avc1", "video/mp4"] ++ ("video/webm") :: []) ∧
    webmOnlySupport ("video/mp4;codecs=avc1") = false ∧
    webmOnlySupport ("video/mp4") = false ∧
    webmOnlySupport ("video/webm") = true ∧
    negotiateMimeType VideoFormat.mp4 webmOnlySupport = ("video/webm") := by
  refine ⟨by decide, by decide, by decide, by decide, ?_⟩
  exact (C5_negotiation VideoFormat.mp4 webmOnlySupport).1
    ["video/mp4;codecs=avc1", "video/mp4"] [] ("video/webm") (by decide)
    (by decide) (by decide)

/-- C6: for every input text and measurement function, the total word count
across the layout lines equals the length of `text.split(' ')` (no word is
dropped, none fabricated), and no line is empty — including the case of a
word wider than the maximum line width, which still occupies a line. -/
theorem C6_no_word_drop (measure : String → ℚ) (text : String) (mw sy fs lhs : ℚ) :
    (((calculateTextLayout measure text mw sy fs lhs).lines.map
        fun l => l.words.length).sum = (jsSplit text).length) ∧
    ∀ l ∈ (calculateTextLayout measure text mw sy fs lhs).lines, l.words ≠ [] := by
  constructor
  · simp only [calculateTextLayout]
    rw [placeLines_words_lengths, ← List.length_flatten]
    have h1 := congrArg List.length
      (buildLines_flatten_texts measure mw (measure (" ")) (jsSplit text) [] 0)
    simpa [Function.comp_def] using h1
  · intro l hl
    simp only [calculateTextLayout] at hl
    have hlen := List.mem_map_of_mem (fun l => l.words.length) hl
    rw [placeLines_words_lengths] at hlen
    obtain ⟨bl, hbl, hblen⟩ := List.mem_map.mp hlen
    have hblen2 : bl.length = l.words.length := hblen
    intro hwnil
    rw [hwnil] at hblen2
    exact buildLines_ne_nil measure mw (measure (" ")) (jsSplit text) [] 0 bl hbl
      (List.length_eq_zero.mp (by simpa using hblen2))

/-- C9: `calculateTextLayout` is deterministic — it depends only on the
values of its arguments: two calls with identical text and numeric
parameters and pointwise-equal measurement functions return identical
layouts (same line breaks, positions, and timing fractions). -/
theorem C9_layout_deterministic (m1 m2 : String → ℚ) (text : String)
    (mw sy fs lhs : ℚ) (h : ∀ s, m1 s = m2 s) :
    calculateTextLayout m1 text mw sy fs lhs
      = calculateTextLayout m2 text mw sy fs lhs := by
  have hm : m1 = m2 := funext h
  rw [hm]

/-- Witness for C9 at a concrete text and measurement function. -/
theorem C9_layout_deterministic_witness :
    (lenMeasure = lenMeasure) ∧
    calculateTextLayout lenMeasure ("Hi") 612 960 44 (27 / 20)
      = calculateTextLayout lenMeasure ("Hi") 612 960 44 (27 / 20) :=
  ⟨rfl, C9_layout_deterministic lenMeasure lenMeasure ("Hi") 612 960 44 (27 / 20)
    fun s => rfl⟩

/-- C10: for a layout from non-empty text, the active-word lookup returns
no word at any fraction ≥ 1; the compositor's frame fractions
`f / totalFrames` always lie in `[0, 1)`; and at every fraction in
`[0, 1)` (hence ≥ the first word's start fraction 0) some word is
active. -/
theorem C10_frame_fraction_active (measure : String → ℚ) (text : String)
    (mw sy fs lhs : ℚ) (h : text ≠ "") :
    (∀ p : ℚ, 1 ≤ p →
      activeWord (calculateTextLayout measure text mw sy fs lhs) p = none) ∧
    (∀ d : ℚ, ∀ q ∈ sceneFrameFractions d, 0 ≤ q ∧ q < 1) ∧
    (∀ p : ℚ, 0 ≤ p → p < 1 →
      (activeWord (calculateTextLayout measure text mw sy fs lhs) p).isSome
        = true) := by
  have htim := layout_flattened_times measure text mw sy fs lhs
  simp only [timesOf] at htim
  have hT : (0 : ℚ) < (((weightsOf text).sum : ℕ) : ℚ) := by
    exact_mod_cast weightsSum_pos text
  refine ⟨?_, fun d => sceneFrameFractions_mem d, ?_⟩
  · intro p hp
    rw [activeWord]
    refine find_none_of_ge p _ hT (weightsOf text) 0 _ htim ?_
    rw [zero_add, div_self (ne_of_gt hT)]
    exact hp
  · intro p hp0 hp1
    rw [activeWord]
    refine find_isSome_of_window p _ hT (weightsOf text) 0 _ htim
      (weightsOf_ne_nil text) ?_ ?_
    · rw [zero_div]
      exact hp0
    · rw [zero_add, div_self (ne_of_gt hT)]
      exact hp1

/-- Witness for C10 at the narration `"Hi"`. -/
theorem C10_frame_fraction_active_witness :
    (("Hi" : String) ≠ "") ∧
    ((∀ p : ℚ, 1 ≤ p →
      activeWord (calculateTextLayout lenMeasure ("Hi") 612 960 44 (27 / 20)) p
        = none) ∧
    (∀ d : ℚ, ∀ q ∈ sceneFrameFractions d, 0 ≤ q ∧ q < 1) ∧
    (∀ p : ℚ, 0 ≤ p → p < 1 →
      (activeWord (calculateTextLayout lenMeasure ("Hi") 612 960 44 (27 / 20))
          p).isSome = true)) :=
  ⟨by decide,
   C10_frame_fraction_active lenMeasure ("Hi") 612 960 44 (27 / 20) (by decide)⟩

/-- C7: when a scene's image failed to load (`none`) but its audio decoded
(duration `d > 0`), the render still completes: that scene contributes its
full frame sequence (one frame per tick of the `d * 30`-frame loop), every
one of its frames has a black background (no image drawn), captions are
drawn on its frames whenever enabled and the scene has narration, and the
surrounding scenes' contributions are unchanged. -/
theorem C7_partial_failure (measure : String → ℚ) (mw sy fs lhs : ℚ)
    (pre post : List GeneratedSegment) (seg : GeneratedSegment)
    (ipre ipost : List (Option LoadedImage)) (d : ℚ)
    (hlen : ipre.length = pre.length) (haudio : seg.audioBuffer = some d)
    (hdur : 0 < d) :
    (renderFrames true (layoutCacheGet measure mw sy fs lhs (pre ++ seg :: post))
        (pre ++ seg :: post) (ipre ++ none :: ipost)
      = renderFrames true (layoutCacheGet measure mw sy fs lhs (pre ++ seg :: post))
          pre ipre
        ++ (sceneFrameFractions d).map
            (drawnFrame true (layoutCacheGet measure mw sy fs lhs (pre ++ seg :: post))
              seg none)
        ++ renderFrames true (layoutCacheGet measure mw sy fs lhs (pre ++ seg :: post))
            post ipost) ∧
    sceneFrameFractions d ≠ [] ∧
    (∀ p : ℚ,
      (drawnFrame true (layoutCacheGet measure mw sy fs lhs (pre ++ seg :: post))
          seg none p).background = none) ∧
    (seg.narration ≠ "" → ∀ p : ℚ,
      (drawnFrame true (layoutCacheGet measure mw sy fs lhs (pre ++ seg :: post))
          seg none p).captionsDrawn = true) := by
  refine ⟨?_, sceneFrameFractions_ne_nil d hdur, fun p => rfl, ?_⟩
  · rw [renderFrames_append true (layoutCacheGet measure mw sy fs lhs (pre ++ seg :: post))
      pre post seg ipre ipost none hlen]
    simp [sceneFrames, haudio]
  · intro hn p
    have hmem : seg ∈ pre ++ seg :: post :=
      List.mem_append_right pre (List.mem_cons_self seg post)
    simp [drawnFrame, layoutCacheGet_isSome measure mw sy fs lhs _ seg hmem hn]

/-- Witness for C7: a single scene with 10-second audio and a failed image
still yields a non-empty, black-background frame sequence. -/
theorem C7_partial_failure_witness :
    (([] : List (Option LoadedImage)).length = ([] : List GeneratedSegment).length) ∧
    segA.audioBuffer = some 10 ∧ ((0 : ℚ) < 10) ∧
    sceneFrameFractions 10 ≠ [] ∧
    (∀ p : ℚ,
      (drawnFrame true (layoutCacheGet lenMeasure 612 960 44 (27 / 20) ([] ++ segA :: []))
          segA none p).background = none) :=
  ⟨rfl, rfl, by norm_num,
   (C7_partial_failure lenMeasure 612 960 44 (27 / 20) [] [] segA [] [] 10 rfl rfl
      (by norm_num)).2.1,
   (C7_partial_failure lenMeasure 612 960 44 (27 / 20) [] [] segA [] [] 10 rfl rfl
      (by norm_num)).2.2.1⟩

/-- C8: a scene whose audio is entirely missing contributes no frames and
no audio (no silence is fabricated), and the remaining scenes are
composited, in order, exactly as if the scene were absent. -/
theorem C8_skip_missing_audio (showC : Bool) (layouts : String → Option TextLayout)
    (pre post : List GeneratedSegment) (seg : GeneratedSegment)
    (ipre ipost : List (Option LoadedImage)) (img : Option LoadedImage)
    (hlen : ipre.length = pre.length) (hnone : seg.audioBuffer = none) :
    renderFrames showC layouts (pre ++ seg :: post) (ipre ++ img :: ipost)
      = renderFrames showC layouts pre ipre ++ renderFrames showC layouts post ipost ∧
    renderAudio (pre ++ seg :: post) = renderAudio pre ++ renderAudio post := by
  constructor
  · rw [renderFrames_append showC layouts pre post seg ipre ipost img hlen]
    simp [sceneFrames, hnone]
  · simp [renderAudio, List.filterMap_append, List.filterMap_cons, hnone]

/-- Witness for C8: a single scene with no audio contributes nothing. -/
theorem C8_skip_missing_audio_witness :
    (([] : List (Option LoadedImage)).length = ([] : List GeneratedSegment).length) ∧
    segB.audioBuffer = none ∧
    (renderFrames false (fun x => none) ([] ++ segB :: []) ([] ++ none :: [])
      = renderFrames false (fun x => none) [] []
        ++ renderFrames false (fun x => none) [] []) ∧
    renderAudio ([] ++ segB :: []) = renderAudio [] ++ renderAudio [] := by
  obtain ⟨h1, h2⟩ :=
    C8_skip_missing_audio false (fun x => none) [] [] segB [] [] none rfl rfl
  exact ⟨rfl, rfl, h1, h2⟩

end RealSmith
